import Mathlib

/-
  Verification development for the `text-miner` corpus module
  (src/lib/corpus.js).

  Document texts are modelled as `List Char`.  JavaScript strings are
  translated with `String.toList`.  The whitespace class models the core
  of the JavaScript `\s` character class (ASCII whitespace plus NBSP);
  the example texts in the development use only ASCII whitespace.
-/

/-- The whitespace test used by `\s` in the regexes of corpus.js and by the
underscore.string `trim`/`clean` helpers (ASCII whitespace and NBSP). -/
def isWsChar (c : Char) : Bool :=
  c = ' ' || c = '\t' || c = '\n' || c = '\r' || c = '\x0b' || c = '\x0c' || c = '\u00A0'

/-- The delimiter class `[\s\.]` of the `removeWords` regex: whitespace or a
period. -/
def boundaryChar (c : Char) : Bool :=
  isWsChar c || c = '.'

/-- The character class `[\!\?\.,;-]` of `removeInterpunctuation`. -/
def interpChar (c : Char) : Bool :=
  c = '!' || c = '?' || c = '.' || c = ',' || c = ';' || c = '-'

/-- underscore.string `trim`: drop leading and trailing whitespace. -/
def trimChars (l : List Char) : List Char :=
  ((l.dropWhile isWsChar).reverse.dropWhile isWsChar).reverse

/-- Worker for whitespace collapsing: `inRun` records whether the previous
character was whitespace (in which case further whitespace is dropped,
the run having already produced its single space). -/
def collapseGo : Bool → List Char → List Char
  | _, [] => []
  | inRun, c :: cs =>
      if isWsChar c then
        if inRun then collapseGo true cs else ' ' :: collapseGo true cs
      else c :: collapseGo false cs

/-- underscore.string `clean`: trim, then collapse every whitespace run to a
single space (`replace(/\s+/g, ' ')`). -/
def cleanChars (l : List Char) : List Char :=
  collapseGo false (trimChars l)

/-- Character comparison used when matching a word: literal equality, or
case-folded equality when the regex carries the `i` flag. -/
def charMatch (ci : Bool) (a c : Char) : Bool :=
  if ci then a.toLower = c.toLower else a = c

/-- `wordAt ci w s`: does `s` start with the word `w` (up to case when
`ci` is set)?  This is the literal-word part of the `removeWords` regex;
the JavaScript code interpolates the word verbatim into the pattern, so the
model covers words without regex metacharacters. -/
def wordAt (ci : Bool) : List Char → List Char → Bool
  | [], _ => true
  | _ :: _, [] => false
  | a :: w', c :: s' => charMatch ci a c && wordAt ci w' s'

/-- Is the character at index `j` of `s` in the delimiter class?  `false`
when `j` is out of range (the regex needs an actual character there). -/
def boundaryAt (s : List Char) (j : Nat) : Bool :=
  match s.get? j with
  | some c => boundaryChar c
  | none => false

/-- Greedy match with backtracking for `[\s\.]+ word [\s\.]` anchored at the
start of `s`: try taking `j` delimiter characters, from `j = n` down to
`j = 1`; on success return the total number of characters consumed. -/
def tryFrom (ci : Bool) (w s : List Char) : Nat → Option Nat
  | 0 => none
  | j + 1 =>
      if wordAt ci w (s.drop (j + 1)) && boundaryAt s (j + 1 + w.length) then
        some (j + 1 + w.length + 1)
      else tryFrom ci w s j

/-- Match the `removeWords` pattern `[\s\.]+ word [\s\.]` at the start of
`s` (greedy `+`, i.e. starting from the maximal delimiter run). -/
def matchLen (ci : Bool) (w s : List Char) : Option Nat :=
  tryFrom ci w s (s.takeWhile boundaryChar).length

/-- One step of the global `String.replace(re, '')` scan, fuelled so that the
definition is structural.  At each position: if the pattern matches, drop the
matched characters and continue after them; otherwise keep the character and
advance by one.  `removeWordPass` supplies fuel `s.length`, which suffices
because every step consumes at least one character. -/
def passGo (ci : Bool) (w : List Char) : Nat → List Char → List Char
  | _, [] => []
  | 0, s => s
  | n + 1, c :: cs =>
      match matchLen ci w (c :: cs) with
      | some k => passGo ci w n ((c :: cs).drop k)
      | none => c :: passGo ci w n cs

/-- `text.replace(new RegExp("[\\s\\.]+word[\\s\\.]", flags), '')` — the
single global replacement pass that `removeWords` performs for one word. -/
def removeWordPass (ci : Bool) (w s : List Char) : List Char :=
  passGo ci w s.length s

/-- The inner loop of `removeWords` on one document text: one global
replacement pass per word, in the order of the word list. -/
def removeWordsTexts (words : List (List Char)) (ci : Bool) (t : List Char) : List Char :=
  words.foldl (fun acc w => removeWordPass ci w acc) t

/-- Modelled from the spec: the Document entity (src/lib/document.js is not
part of the provided sources).  Per §3 of the specification it is a record
exposing a `text` field (string) and an `attributes` field (an open
key-value mapping), both own fields of the object. -/
structure Document where
  text : List Char
  attributes : List (String × String)
deriving DecidableEq, Repr

/-- The object heap: Document objects are mutable JavaScript objects shared
by reference, so they live in a store and are denoted by their allocation
index. -/
abbrev Store := List Document

/-- A Corpus holds `this.documents`, an ordered sequence of references to
Document objects.  `nDocs` is the derived length of this sequence. -/
structure Corpus where
  docIds : List Nat
deriving DecidableEq, Repr

/-- The two error kinds of §7: `InvalidArgument` models the `TypeError`s
thrown on shape violations, `LengthMismatch` the `Error` thrown by
`setAttributes`. -/
inductive Err where
  | invalidArgument
  | lengthMismatch
deriving DecidableEq, Repr

/-- Allocate a Document for a plain string, as `new Doc(val)` does (fresh
object, empty attributes). -/
def mkDoc (s : String) : Document :=
  ⟨s.toList, []⟩

/-- Write through a Document reference: `g` is applied to the object the
reference denotes.  Out-of-range references (which do not arise for corpora
built by the constructor) leave the store unchanged. -/
def updateAt (st : Store) (id : Nat) (g : Document → Document) : Store :=
  match st.get? id with
  | some d => st.set id (g d)
  | none => st

/-- Perform a sequence of reference writes, left to right. -/
def updateFold : List (Nat × (Document → Document)) → Store → Store
  | [], st => st
  | (id, g) :: rest, st => updateFold rest (updateAt st id g)

/-- The store effect of `Corpus.prototype.apply(func)`: for each index `i`,
`doc = this.documents[i]; doc.text = func(doc.text, doc.attributes, i)`. -/
def applyTexts (f : List Char → List (String × String) → Nat → List Char)
    (c : Corpus) (st : Store) : Store :=
  updateFold (c.docIds.enum.map fun p =>
    (p.2, fun d => ⟨f d.text d.attributes p.1, d.attributes⟩)) st

/-- `Corpus.prototype.apply`: mutates every document text in place and
returns the same corpus. -/
def Corpus.apply (f : List Char → List (String × String) → Nat → List Char)
    (c : Corpus) (st : Store) : Corpus × Store :=
  (c, applyTexts f c st)

/-- `Corpus.prototype.trim`. -/
def Corpus.trim (c : Corpus) (st : Store) : Corpus × Store :=
  Corpus.apply (fun t _ _ => trimChars t) c st

/-- `Corpus.prototype.clean`. -/
def Corpus.clean (c : Corpus) (st : Store) : Corpus × Store :=
  Corpus.apply (fun t _ _ => cleanChars t) c st

/-- `Corpus.prototype.toLower` (`text.toLowerCase()`; ASCII case folding). -/
def Corpus.toLower (c : Corpus) (st : Store) : Corpus × Store :=
  Corpus.apply (fun t _ _ => t.map Char.toLower) c st

/-- `Corpus.prototype.removeInterpunctuation`:
`text.replace(/[\!\?\.,;-]/g, ' ')`. -/
def Corpus.removeInterpunctuation (c : Corpus) (st : Store) : Corpus × Store :=
  Corpus.apply (fun t _ _ => t.map fun ch => if interpChar ch then ' ' else ch) c st

/-- `Corpus.prototype.map(func)`: builds a new Corpus by running the same
per-document loop as `apply` (`doc.text = func(doc.text, doc.attributes, i)`)
and pushing each mutated Document object itself (`ret.addDoc(doc)`, which
adopts a Document-shaped argument by reference), so the returned corpus
lists exactly the receiver's document references in order. -/
def Corpus.map (f : List Char → List (String × String) → Nat → List Char)
    (c : Corpus) (st : Store) : Corpus × Store :=
  (⟨c.docIds⟩, applyTexts f c st)

/-- Read a document's text through its reference (total helper for
stating theorems). -/
def textAt (st : Store) (id : Nat) : List Char :=
  match st.get? id with
  | some d => d.text
  | none => []

/-- Read a document's attributes through its reference. -/
def attrsAt (st : Store) (id : Nat) : List (String × String) :=
  match st.get? id with
  | some d => d.attributes
  | none => []

/-- The group key computed for position `i`, reference `id`:
`func(doc.text, doc.attributes, i)`, used as a string property key. -/
def groupKey (f : List Char → List (String × String) → Nat → String)
    (st : Store) (i id : Nat) : String :=
  f (textAt st id) (attrsAt st id) i

/-- `corpora[group]` update of `groupBy`: append the document reference to
the corpus stored under the key if the key is present
(`corpora[group].addDoc(doc)`), otherwise add a new single-document corpus
under the key at the end of the key order (`corpora[group] = new Corpus(doc)`). -/
def addToGroup : List (String × Corpus) → String → Nat → List (String × Corpus)
  | [], k, id => [(k, ⟨[id]⟩)]
  | (k', g) :: rest, k, id =>
      if k' = k then (k', ⟨g.docIds ++ [id]⟩) :: rest
      else (k', g) :: addToGroup rest k id

/-- The loop of `Corpus.prototype.groupBy` over `(index, reference)` pairs,
accumulating the `corpora` mapping. -/
def groupByGo (f : List Char → List (String × String) → Nat → String)
    (st : Store) : List (Nat × Nat) → List (String × Corpus) → List (String × Corpus)
  | [], acc => acc
  | (i, id) :: rest, acc => groupByGo f st rest (addToGroup acc (groupKey f st i id) id)

/-- `Corpus.prototype.groupBy(func)`: partitions the document references
into corpora keyed by the value of `func`.  It only reads the store (the
loop body allocates new corpora and pushes existing references; it never
writes a document field or `this.documents`). -/
def Corpus.groupBy (f : List Char → List (String × String) → Nat → String)
    (c : Corpus) (st : Store) : List (String × Corpus) :=
  groupByGo f st c.docIds.enum []

/-- First-match association lookup in the `corpora` mapping. -/
def findGroup : List (String × Corpus) → String → Option Corpus
  | [], _ => none
  | (k', g) :: rest, k => if k' = k then some g else findGroup rest k

/-- The store effect of the document loop of `removeWords`: for each
document (in order), one global replacement pass per word (in order),
each pass reading the text left by the previous one. -/
def removeWordsLoop (words : List (List Char)) (ci : Bool) (c : Corpus) (st : Store) : Store :=
  updateFold (c.docIds.map fun id =>
    (id, fun d => ⟨removeWordsTexts words ci d.text, d.attributes⟩)) st

/-- `Corpus.prototype.removeWords(words, caseInsensitive)` after its two
argument checks (an array `words`, an optional boolean flag — the claims
supply well-typed arguments): the per-document word loop followed by
`this.clean()`, returning the same corpus. -/
def Corpus.removeWords (words : List (List Char)) (ci : Bool)
    (c : Corpus) (st : Store) : Corpus × Store :=
  Corpus.clean c (removeWordsLoop words ci c st)

/-- An element of a constructor input array, as discriminated by the
validators: a string primitive, a Document-shaped object (a reference), or
anything else (numbers, booleans, null, non-Document objects, nested
arrays — all fail both the string and the duck-typed Document check). -/
inductive Elem where
  | str (s : String)
  | docRef (id : Nat)
  | other
deriving DecidableEq, Repr

/-- A constructor argument: absent/undefined, a single string, a single
Document-shaped object, an array, or any other value. -/
inductive CtorInput where
  | undef
  | str (s : String)
  | docRef (id : Nat)
  | arr (xs : List Elem)
  | other
deriving DecidableEq, Repr

/-- Is an array element a string primitive? -/
def Elem.isStr : Elem → Bool
  | .str _ => true
  | _ => false

/-- Does an array element pass the duck-typed `isDoc` check? -/
def Elem.isDocE : Elem → Bool
  | .docRef _ => true
  | _ => false

/-- `validate.io-string-array`: a *nonempty* array whose elements are all
string primitives (the validator explicitly rejects empty arrays). -/
def isStringArrayE (xs : List Elem) : Bool :=
  !xs.isEmpty && xs.all Elem.isStr

/-- `isDocArray` of corpus.js: `validate.io-array-like` plus an `isDoc`
check on every element; an empty array passes (the element loop is
vacuous). -/
def isDocArrayE (xs : List Elem) : Bool :=
  xs.all Elem.isDocE

/-- The string wrapped by an element (dead default for non-strings). -/
def Elem.getStr : Elem → String
  | .str s => s
  | _ => ""

/-- The reference held by an element (dead default for non-references). -/
def Elem.getRef : Elem → Nat
  | .docRef id => id
  | _ => 0

/-- `this.init(val)` of the Corpus constructor: the five-shape priority
test (`undefined`, string, string array, Document, Document array), any
other shape raising the `InvalidArgument` `TypeError`.  String inputs
allocate fresh Documents; Document-shaped inputs are adopted by
reference. -/
def Corpus.init (v : CtorInput) (st : Store) : Except Err (Corpus × Store) :=
  match v with
  | .undef => .ok (⟨[]⟩, st)
  | .str s => .ok (⟨[st.length]⟩, st ++ [mkDoc s])
  | .docRef id => .ok (⟨[id]⟩, st)
  | .arr xs =>
      if isStringArrayE xs then
        .ok (⟨List.range' st.length xs.length⟩, st ++ xs.map (fun e => mkDoc e.getStr))
      else if isDocArrayE xs then
        .ok (⟨xs.map Elem.getRef⟩, st)
      else .error .invalidArgument
  | .other => .error .invalidArgument

/-- An element of a `setAttributes` argument array: an attribute mapping
(a plain object), or anything else (strings, numbers, booleans, null —
all fail the object check). -/
inductive SAElem where
  | objE (a : List (String × String))
  | nonObjE
deriving DecidableEq, Repr

/-- A `setAttributes` argument: an array, or any non-array value. -/
inductive SAInput where
  | arrv (xs : List SAElem)
  | notArr
deriving DecidableEq, Repr

/-- Is an element an attribute mapping? -/
def SAElem.isObjE : SAElem → Bool
  | .objE _ => true
  | .nonObjE => false

/-- The mapping held by an element (dead default for non-objects). -/
def SAElem.getObj : SAElem → List (String × String)
  | .objE a => a
  | .nonObjE => []

/-- `validate.io-object-array`: a *nonempty* array whose elements are all
plain objects (the validator explicitly rejects empty arrays). -/
def isObjectArraySA : SAInput → Bool
  | .arrv xs => !xs.isEmpty && xs.all SAElem.isObjE
  | .notArr => false

/-- `setAttributes(arr)`: the object-array check (throwing
`InvalidArgument`), then the length check against `nDocs` (throwing
`LengthMismatch`), then the positional assignment
`self.documents[i].attributes = arr[i]`, returning the same corpus.  The
returned store is the input store on either error (both checks precede the
loop). -/
def Corpus.setAttributes (v : SAInput) (c : Corpus) (st : Store) :
    Except Err Corpus × Store :=
  if isObjectArraySA v then
    match v with
    | .arrv xs =>
        if xs.length = c.docIds.length then
          (.ok c,
            updateFold (c.docIds.zip (xs.map SAElem.getObj) |>.map fun p =>
              (p.1, fun d => ⟨d.text, p.2⟩)) st)
        else (.error .lengthMismatch, st)
    | .notArr => (.error .invalidArgument, st)
  else (.error .invalidArgument, st)

/-- The texts of a corpus, in document order. -/
def Corpus.texts (c : Corpus) (st : Store) : List (List Char) :=
  c.docIds.map (textAt st)

/-- Spec-side count for claim C4: the number of documents implied by a
constructor input (`none` when the input matches none of the five accepted
shapes). -/
def impliedDocCount : CtorInput → Option Nat
  | .undef => some 0
  | .str _ => some 1
  | .docRef _ => some 1
  | .arr xs => if xs.all Elem.isStr || xs.all Elem.isDocE then some xs.length else none
  | .other => none

/-- Does the word `w` occur (verbatim) at index `i` of `s`? -/
def occursAt (w s : List Char) (i : Nat) : Bool :=
  decide ((s.drop i).take w.length = w)

/-- Is the occurrence of `w` at index `i` of `s` bounded by a whitespace or
period character on both sides (claim C1's matching condition)? -/
def boundedOcc (w s : List Char) (i : Nat) : Bool :=
  decide (1 ≤ i) && boundaryAt s (i - 1) && occursAt w s i && boundaryAt s (i + w.length)

/-- Spec-side reading of claim C1, word-only variant: delete the characters
of every bounded occurrence of `w` in `s` (keeping the delimiters). -/
def deleteBounded (w s : List Char) : List Char :=
  (s.enum.filter fun p =>
    !((List.range s.length).any fun i =>
      boundedOcc w s i && decide (i ≤ p.1) && decide (p.1 < i + w.length))).map Prod.snd

/-- Spec-side reading of claim C1, delimiter-inclusive variant: delete every
bounded occurrence of `w` in `s` together with its two delimiters. -/
def deleteBoundedSpans (w s : List Char) : List Char :=
  (s.enum.filter fun p =>
    !((List.range s.length).any fun i =>
      boundedOcc w s i && decide (i - 1 ≤ p.1) && decide (p.1 ≤ i + w.length))).map Prod.snd

/-- Claim C1's predicted final text, word-only reading: delete every bounded
occurrence of each word, then normalize whitespace. -/
def claimIdealW (words : List (List Char)) (s : List Char) : List Char :=
  cleanChars (words.foldl (fun acc w => deleteBounded w acc) s)

/-- Claim C1's predicted final text, delimiter-inclusive reading. -/
def claimIdealS (words : List (List Char)) (s : List Char) : List Char :=
  cleanChars (words.foldl (fun acc w => deleteBoundedSpans w acc) s)

/-- A chunk of text deleted by one `removeWords` replacement: one or more
delimiter characters, then the word (up to case when the `i` flag is set),
then exactly one delimiter character. -/
def IsPatternMatch (ci : Bool) (w m : List Char) : Prop :=
  ∃ bs u b, m = bs ++ u ++ [b] ∧ bs ≠ [] ∧ (∀ c ∈ bs, boundaryChar c = true) ∧
    boundaryChar b = true ∧ List.Forall₂ (fun a c => charMatch ci a c = true) w u

/-! ### Store lemmas -/

/-- Setting a list entry to the value it already holds is a no-op. -/
theorem list_set_self {α : Type} : ∀ (l : List α) (i : Nat) (a : α),
    l.get? i = some a → l.set i a = l
  | [], _, _, h => by simp at h
  | x :: l, 0, a, h => by
      have hx : x = a := by injection h
      simp [List.set, hx]
  | x :: l, n + 1, a, h => by
      simp only [List.get?] at h
      simp [List.set, list_set_self l n a h]

theorem updateAt_length (st : Store) (id : Nat) (g : Document → Document) :
    (updateAt st id g).length = st.length := by
  unfold updateAt
  cases h : st.get? id with
  | none => rfl
  | some d => simp [List.length_set]

theorem updateAt_get_ne (st : Store) (id : Nat) (g : Document → Document)
    (j : Nat) (hj : id ≠ j) : (updateAt st id g).get? j = st.get? j := by
  unfold updateAt
  cases h : st.get? id with
  | none => rfl
  | some d => exact List.get?_set_ne _ _ hj

theorem updateAt_get_self (st : Store) (id : Nat) (g : Document → Document) :
    (updateAt st id g).get? id = (st.get? id).map g := by
  unfold updateAt
  cases h : st.get? id with
  | none => rw [h]; rfl
  | some d => rw [List.get?_set_eq, h]; rfl

theorem updateFold_length : ∀ (L : List (Nat × (Document → Document))) (st : Store),
    (updateFold L st).length = st.length
  | [], st => rfl
  | (id, g) :: rest, st => by
      simp [updateFold, updateFold_length rest, updateAt_length]

theorem updateFold_get_not : ∀ (L : List (Nat × (Document → Document))) (st : Store)
    (id : Nat), id ∉ L.map Prod.fst → (updateFold L st).get? id = st.get? id
  | [], _, _, _ => rfl
  | (id0, g0) :: rest, st, id, h => by
      simp only [List.map_cons, List.mem_cons] at h
      push_neg at h
      show (updateFold rest (updateAt st id0 g0)).get? id = st.get? id
      rw [updateFold_get_not rest _ id h.2, updateAt_get_ne _ _ _ _ (fun e => h.1 e.symm)]

theorem updateFold_get_nodup : ∀ (L : List (Nat × (Document → Document))) (st : Store)
    (id : Nat) (g : Document → Document), (L.map Prod.fst).Nodup → (id, g) ∈ L →
    (updateFold L st).get? id = (st.get? id).map g
  | [], _, _, _, _, hmem => absurd hmem (List.not_mem_nil _)
  | (id0, g0) :: rest, st, id, g, hnd, hmem => by
      simp only [List.map_cons, List.nodup_cons] at hnd
      rcases List.mem_cons.mp hmem with heq | htail
      · have hid : id0 = id := (congrArg Prod.fst heq).symm
        have hg : g0 = g := (congrArg Prod.snd heq).symm
        subst hid
        subst hg
        show (updateFold rest (updateAt st id0 g0)).get? id0 = (st.get? id0).map g0
        rw [updateFold_get_not rest _ id0 hnd.1, updateAt_get_self]
      · have hne : id0 ≠ id := by
          intro e
          exact hnd.1 (e ▸ List.mem_map.mpr ⟨(id, g), htail, rfl⟩)
        show (updateFold rest (updateAt st id0 g0)).get? id = (st.get? id).map g
        rw [updateFold_get_nodup rest _ id g hnd.2 htail,
          updateAt_get_ne _ _ _ _ hne]

theorem updateFold_get_mem : ∀ (L : List (Nat × (Document → Document))) (st : Store)
    (id : Nat), id ∈ L.map Prod.fst → ∀ d, (updateFold L st).get? id = some d →
    ∃ g d0, (id, g) ∈ L ∧ d = g d0
  | [], _, _, hmem, _, _ => absurd hmem (List.not_mem_nil _)
  | (id0, g0) :: rest, st, id, hmem, d, hget => by
      by_cases hr : id ∈ rest.map Prod.fst
      · obtain ⟨g, d0, hm, he⟩ := updateFold_get_mem rest _ id hr d hget
        exact ⟨g, d0, List.mem_cons_of_mem _ hm, he⟩
      · have hid : id = id0 := by
          simp only [List.map_cons, List.mem_cons] at hmem
          tauto
        subst hid
        have hget2 : (updateFold rest (updateAt st id g0)).get? id = some d := hget
        rw [updateFold_get_not rest _ id hr, updateAt_get_self] at hget2
        cases h0 : st.get? id with
        | none => rw [h0] at hget2; simp at hget2
        | some d0 =>
            rw [h0] at hget2
            simp only [Option.map_some'] at hget2
            injection hget2 with hd
            exact ⟨g0, d0, List.mem_cons_self _ _, hd.symm⟩

theorem updateFold_noop : ∀ (L : List (Nat × (Document → Document))) (st : Store),
    (∀ p ∈ L, ∀ d, st.get? p.1 = some d → p.2 d = d) → updateFold L st = st
  | [], _, _ => rfl
  | (id0, g0) :: rest, st, h => by
      have h0 : updateAt st id0 g0 = st := by
        unfold updateAt
        cases hg : st.get? id0 with
        | none => rfl
        | some d =>
            have hd : g0 d = d := h (id0, g0) (List.mem_cons_self _ _) d hg
            show List.set st id0 (g0 d) = st
            rw [hd]
            exact list_set_self st id0 d hg
      show updateFold rest (updateAt st id0 g0) = st
      rw [h0]
      exact updateFold_noop rest st (fun p hp => h p (List.mem_cons_of_mem _ hp))

/-! ### Operation-level store corollaries -/

theorem applyTexts_ids (f : List Char → List (String × String) → Nat → List Char)
    (c : Corpus) :
    ((c.docIds.enum.map fun p =>
      (p.2, fun (d : Document) => (⟨f d.text d.attributes p.1, d.attributes⟩ : Document))).map Prod.fst)
      = c.docIds := by
  rw [List.map_map]
  exact List.enum_map_snd c.docIds

theorem applyTexts_get_mem (f : List Char → List (String × String) → Nat → List Char)
    (c : Corpus) (st : Store) (hnd : c.docIds.Nodup) (i id : Nat)
    (hi : c.docIds.get? i = some id) :
    (applyTexts f c st).get? id
      = (st.get? id).map fun d => ⟨f d.text d.attributes i, d.attributes⟩ := by
  apply updateFold_get_nodup
  · rw [applyTexts_ids]
    exact hnd
  · exact List.mem_map.mpr ⟨(i, id), List.mem_enum_iff_get?.mpr hi, rfl⟩

theorem applyTexts_get_not (f : List Char → List (String × String) → Nat → List Char)
    (c : Corpus) (st : Store) (id : Nat) (h : id ∉ c.docIds) :
    (applyTexts f c st).get? id = st.get? id := by
  apply updateFold_get_not
  rw [applyTexts_ids]
  exact h

theorem removeWordsLoop_ids (words : List (List Char)) (ci : Bool) (c : Corpus) :
    ((c.docIds.map fun id =>
      (id, fun (d : Document) => (⟨removeWordsTexts words ci d.text, d.attributes⟩ : Document))).map Prod.fst)
      = c.docIds := by
  rw [List.map_map]
  exact List.map_id c.docIds

theorem removeWordsLoop_get_mem (words : List (List Char)) (ci : Bool)
    (c : Corpus) (st : Store) (hnd : c.docIds.Nodup) (id : Nat) (h : id ∈ c.docIds) :
    (removeWordsLoop words ci c st).get? id
      = (st.get? id).map fun d => ⟨removeWordsTexts words ci d.text, d.attributes⟩ := by
  apply updateFold_get_nodup
  · rw [removeWordsLoop_ids]
    exact hnd
  · exact List.mem_map.mpr ⟨id, h, rfl⟩

theorem removeWordsLoop_get_not (words : List (List Char)) (ci : Bool)
    (c : Corpus) (st : Store) (id : Nat) (h : id ∉ c.docIds) :
    (removeWordsLoop words ci c st).get? id = st.get? id := by
  apply updateFold_get_not
  rw [removeWordsLoop_ids]
  exact h

theorem removeWordPass_nil (ci : Bool) (w : List Char) : removeWordPass ci w [] = [] := rfl

theorem removeWordsTexts_nil (ci : Bool) : ∀ (words : List (List Char)),
    removeWordsTexts words ci [] = []
  | [] => rfl
  | w :: ws => by
      show removeWordsTexts ws ci (removeWordPass ci w []) = []
      rw [removeWordPass_nil]
      exact removeWordsTexts_nil ci ws

/-- Per-document characterization of `removeWords` on a corpus without
duplicate document references: the final text of each document is the
word-by-word replacement fold followed by the automatic `clean`. -/
theorem removeWords_textAt (words : List (List Char)) (ci : Bool)
    (c : Corpus) (st : Store) (hnd : c.docIds.Nodup) (i id : Nat)
    (hi : c.docIds.get? i = some id) :
    textAt (Corpus.removeWords words ci c st).2 id
      = cleanChars (removeWordsTexts words ci (textAt st id)) := by
  have hmem : id ∈ c.docIds := List.get?_mem hi
  have h1 : (removeWordsLoop words ci c st).get? id
      = (st.get? id).map (fun d => ⟨removeWordsTexts words ci d.text, d.attributes⟩) :=
    removeWordsLoop_get_mem words ci c st hnd id hmem
  have h2 : ((Corpus.removeWords words ci c st).2).get? id
      = ((removeWordsLoop words ci c st).get? id).map
        (fun d => ⟨cleanChars d.text, d.attributes⟩) :=
    applyTexts_get_mem (fun t _ _ => cleanChars t) c (removeWordsLoop words ci c st) hnd i id hi
  rw [h1] at h2
  unfold textAt
  cases h0 : st.get? id with
  | none =>
      rw [h0] at h2
      simp only [Option.map_none'] at h2
      rw [h2, removeWordsTexts_nil, cleanChars]
      rfl
  | some d =>
      rw [h0] at h2
      simp only [Option.map_some'] at h2
      rw [h2]

theorem zip_get? {α β : Type} : ∀ (l1 : List α) (l2 : List β) (i : Nat) (x : α) (y : β),
    l1.get? i = some x → l2.get? i = some y → (l1.zip l2).get? i = some (x, y)
  | [], _, _, _, _, h1, _ => by simp at h1
  | _ :: _, [], _, _, _, _, h2 => by simp at h2
  | a :: l1, b :: l2, 0, x, y, h1, h2 => by
      have hx : a = x := by injection h1
      have hy : b = y := by injection h2
      simp [List.zip_cons_cons, hx, hy]
  | a :: l1, b :: l2, i + 1, x, y, h1, h2 => by
      simp only [List.get?] at h1 h2
      simpa [List.zip_cons_cons] using zip_get? l1 l2 i x y h1 h2

/-! ### Scanner lemmas -/

theorem passGo_nil (ci : Bool) (w : List Char) : ∀ n, passGo ci w n [] = []
  | 0 => rfl
  | _ + 1 => rfl

theorem passGo_cons_some (ci : Bool) (w : List Char) (n : Nat) (c : Char) (cs : List Char)
    (k : Nat) (h : matchLen ci w (c :: cs) = some k) :
    passGo ci w (n + 1) (c :: cs) = passGo ci w n ((c :: cs).drop k) := by
  simp only [passGo, h]

theorem passGo_cons_none (ci : Bool) (w : List Char) (n : Nat) (c : Char) (cs : List Char)
    (h : matchLen ci w (c :: cs) = none) :
    passGo ci w (n + 1) (c :: cs) = c :: passGo ci w n cs := by
  simp only [passGo, h]

theorem tryFrom_eq_some (ci : Bool) (w s : List Char) :
    ∀ (n k : Nat), tryFrom ci w s n = some k →
    ∃ j, 1 ≤ j ∧ j ≤ n ∧ wordAt ci w (s.drop j) = true ∧
      boundaryAt s (j + w.length) = true ∧ k = j + w.length + 1
  | 0, k, h => by simp [tryFrom] at h
  | n + 1, k, h => by
      by_cases hc : (wordAt ci w (s.drop (n + 1)) && boundaryAt s (n + 1 + w.length)) = true
      · simp only [tryFrom, if_pos hc] at h
        injection h with h
        simp only [Bool.and_eq_true] at hc
        obtain ⟨h1, h2⟩ := hc
        exact ⟨n + 1, Nat.succ_le_succ (Nat.zero_le n), le_refl _, h1, h2, h.symm⟩
      · simp only [tryFrom, if_neg hc] at h
        obtain ⟨j, hj1, hj2, hj3, hj4, hj5⟩ := tryFrom_eq_some ci w s n k h
        exact ⟨j, hj1, Nat.le_succ_of_le hj2, hj3, hj4, hj5⟩

theorem boundaryAt_true (s : List Char) (j : Nat) (h : boundaryAt s j = true) :
    ∃ b, s.get? j = some b ∧ boundaryChar b = true := by
  unfold boundaryAt at h
  split at h
  next b hb => exact ⟨b, hb, h⟩
  next => exact absurd h (by simp)

theorem wordAt_forall2 (ci : Bool) : ∀ (w s : List Char), wordAt ci w s = true →
    List.Forall₂ (fun a c => charMatch ci a c = true) w (s.take w.length) ∧
      w.length ≤ s.length
  | [], s, _ => ⟨by simp, Nat.zero_le _⟩
  | a :: w', [], h => by simp [wordAt] at h
  | a :: w', c :: s', h => by
      simp only [wordAt, Bool.and_eq_true] at h
      obtain ⟨h1, h2⟩ := h
      obtain ⟨hf, hl⟩ := wordAt_forall2 ci w' s' h2
      exact ⟨List.Forall₂.cons h1 hf, Nat.succ_le_succ hl⟩

theorem matchLen_spec (ci : Bool) (w s : List Char) (k : Nat)
    (h : matchLen ci w s = some k) :
    2 ≤ k ∧ k ≤ s.length ∧ boundaryAt s (k - 1) = true ∧
      IsPatternMatch ci w (s.take k) := by
  obtain ⟨j, hj1, hj2, hj3, hj4, hk⟩ := tryFrom_eq_some ci w s _ k h
  obtain ⟨b, hbg, hbb⟩ := boundaryAt_true s (j + w.length) hj4
  obtain ⟨hjlt, hbget⟩ := List.get?_eq_some.mp hbg
  have hklen : k ≤ s.length := by omega
  have hk2 : 2 ≤ k := by omega
  have hkb : boundaryAt s (k - 1) = true := by
    have he : k - 1 = j + w.length := by omega
    rw [he]
    exact hj4
  refine ⟨hk2, hklen, hkb, ?_⟩
  have htw : s.take j = (s.takeWhile boundaryChar).take j := by
    conv_lhs => rw [← List.takeWhile_append_dropWhile boundaryChar s]
    rw [List.take_append_of_le_length hj2]
  have hbs : ∀ x ∈ s.take j, boundaryChar x = true := by
    intro x hx
    rw [htw] at hx
    exact List.mem_takeWhile_imp (List.mem_of_mem_take hx)
  obtain ⟨hf, hwl⟩ := wordAt_forall2 ci w (s.drop j) hj3
  have hsplit : s.take k = s.take j ++ ((s.drop j).take w.length ++ [b]) := by
    have h1 : s.take k = s.take j ++ (s.drop j).take (w.length + 1) := by
      rw [hk, Nat.add_assoc, List.take_add]
    have h2 : (s.drop j).take (w.length + 1) =
        (s.drop j).take w.length ++ ((s.drop j).drop w.length).take 1 := by
      rw [← List.take_add]
    have h3 : (s.drop j).drop w.length = s.drop (j + w.length) := List.drop_drop w.length j s
    have h4 : s.drop (j + w.length) = b :: s.drop (j + w.length + 1) := by
      rw [List.drop_eq_get_cons hjlt, hbget]
    rw [h1, h2, h3, h4]
    rfl
  refine ⟨s.take j, (s.drop j).take w.length, b, ?_, ?_, hbs, hbb, hf⟩
  · rw [hsplit, List.append_assoc]
  · apply List.ne_nil_of_length_pos
    rw [List.length_take]
    have hs1 : 1 ≤ s.length := by omega
    omega

theorem matchLen_none_head (ci : Bool) (w : List Char) (c : Char) (cs : List Char)
    (h : boundaryChar c = false) : matchLen ci w (c :: cs) = none := by
  simp [matchLen, List.takeWhile_cons, h, tryFrom]

theorem passGo_fuel (ci : Bool) (w : List Char) :
    ∀ (n m : Nat) (s : List Char), s.length ≤ n → s.length ≤ m →
    passGo ci w n s = passGo ci w m s
  | n, m, [], _, _ => by rw [passGo_nil, passGo_nil]
  | 0, _, c :: cs, hn, _ => by simp at hn
  | _ + 1, 0, c :: cs, _, hm => by simp at hm
  | n + 1, m + 1, c :: cs, hn, hm => by
      cases hml : matchLen ci w (c :: cs) with
      | some k =>
          obtain ⟨hk2, hklen, -, -⟩ := matchLen_spec ci w (c :: cs) k hml
          rw [passGo_cons_some ci w n c cs k hml, passGo_cons_some ci w m c cs k hml]
          have hlc : (c :: cs).length = cs.length + 1 := rfl
          apply passGo_fuel ci w n m
          · rw [List.length_drop]
            simp only [List.length_cons] at hn ⊢
            omega
          · rw [List.length_drop]
            simp only [List.length_cons] at hm ⊢
            omega
      | none =>
          rw [passGo_cons_none ci w n c cs hml, passGo_cons_none ci w m c cs hml]
          have := passGo_fuel ci w n m cs
            (by simp only [List.length_cons] at hn; omega)
            (by simp only [List.length_cons] at hm; omega)
          rw [this]

theorem removeWordPass_eq_passGo (ci : Bool) (w s : List Char) (n : Nat)
    (h : s.length ≤ n) : removeWordPass ci w s = passGo ci w n s :=
  passGo_fuel ci w s.length n s (le_refl _) h

theorem passGo_id_nb (ci : Bool) (w : List Char) :
    ∀ (n : Nat) (s : List Char), s.length ≤ n →
    (∀ c ∈ s, boundaryChar c = false) → passGo ci w n s = s
  | n, [], _, _ => passGo_nil ci w n
  | 0, c :: cs, hn, _ => by simp at hn
  | n + 1, c :: cs, hn, h => by
      rw [passGo_cons_none ci w n c cs
        (matchLen_none_head ci w c cs (h c (List.mem_cons_self _ _)))]
      rw [passGo_id_nb ci w n cs (by simp only [List.length_cons] at hn; omega)
        (fun x hx => h x (List.mem_cons_of_mem _ hx))]

theorem removeWordPass_id_nb (ci : Bool) (w s : List Char)
    (h : ∀ c ∈ s, boundaryChar c = false) : removeWordPass ci w s = s :=
  passGo_id_nb ci w s.length s (le_refl _) h

theorem removeWordPass_append_nb (ci : Bool) (w : List Char) :
    ∀ (w0 : List Char), (∀ c ∈ w0, boundaryChar c = false) →
    ∀ rest, removeWordPass ci w (w0 ++ rest) = w0 ++ removeWordPass ci w rest
  | [], _, rest => by simp
  | a :: w0', h, rest => by
      have ha : boundaryChar a = false := h a (List.mem_cons_self _ _)
      have h1 : removeWordPass ci w ((a :: w0') ++ rest)
          = passGo ci w ((w0' ++ rest).length + 1) (a :: (w0' ++ rest)) := rfl
      rw [h1, passGo_cons_none ci w (w0' ++ rest).length a (w0' ++ rest)
        (matchLen_none_head ci w a (w0' ++ rest) ha)]
      show a :: removeWordPass ci w (w0' ++ rest) = (a :: w0') ++ removeWordPass ci w rest
      rw [removeWordPass_append_nb ci w w0'
        (fun x hx => h x (List.mem_cons_of_mem _ hx)) rest]
      rfl

theorem removeWordPass_suffix_nb (ci : Bool) (w w0 : List Char)
    (h : ∀ c ∈ w0, boundaryChar c = false) :
    ∀ (N : Nat) (z : List Char), z.length ≤ N →
    ∃ y, removeWordPass ci w (z ++ w0) = y ++ w0
  | N, [], _ => ⟨[], by simpa using removeWordPass_id_nb ci w w0 h⟩
  | 0, c :: z', hz => by simp at hz
  | N + 1, c :: z', hz => by
      cases hml : matchLen ci w (c :: (z' ++ w0)) with
      | none =>
          have h1 : removeWordPass ci w ((c :: z') ++ w0)
              = passGo ci w ((z' ++ w0).length + 1) (c :: (z' ++ w0)) := rfl
          rw [h1, passGo_cons_none ci w (z' ++ w0).length c (z' ++ w0) hml]
          obtain ⟨y, hy⟩ := removeWordPass_suffix_nb ci w w0 h N z'
            (by simp only [List.length_cons] at hz; omega)
          exact ⟨c :: y, by rw [show passGo ci w (z' ++ w0).length (z' ++ w0)
            = removeWordPass ci w (z' ++ w0) from rfl, hy]; rfl⟩
      | some k =>
          obtain ⟨hk2, hklen, hkb, -⟩ := matchLen_spec ci w (c :: (z' ++ w0)) k hml
          obtain ⟨b, hbg, hbb⟩ := boundaryAt_true _ _ hkb
          have hlt : k - 1 < (c :: z').length := by
            by_contra hge
            push_neg at hge
            have hbg2 : (w0.get? (k - 1 - (c :: z').length)) = some b := by
              rw [← List.get?_append_right hge]
              exact hbg
            have : b ∈ w0 := List.get?_mem hbg2
            rw [h b this] at hbb
            exact Bool.false_ne_true hbb
          have hkz : k ≤ (c :: z').length := by omega
          have h1 : removeWordPass ci w ((c :: z') ++ w0)
              = passGo ci w ((z' ++ w0).length + 1) (c :: (z' ++ w0)) := rfl
          rw [h1, passGo_cons_some ci w (z' ++ w0).length c (z' ++ w0) k hml]
          have hdrop : (c :: (z' ++ w0)).drop k = (c :: z').drop k ++ w0 := by
            show ((c :: z') ++ w0).drop k = (c :: z').drop k ++ w0
            exact List.drop_append_of_le_length hkz
          rw [hdrop]
          have hfuel : passGo ci w (z' ++ w0).length ((c :: z').drop k ++ w0)
              = removeWordPass ci w ((c :: z').drop k ++ w0) := by
            apply (passGo_fuel ci w _ _ _ _ _).symm
            · exact le_refl _
            · simp only [List.length_append, List.length_drop, List.length_cons] at *
              omega
          rw [hfuel]
          obtain ⟨y, hy⟩ := removeWordPass_suffix_nb ci w w0 h N ((c :: z').drop k)
            (by simp only [List.length_drop, List.length_cons] at *; omega)
          exact ⟨y, hy⟩

theorem passGo_decomp (ci : Bool) (w : List Char) :
    ∀ (n : Nat) (s : List Char), s.length ≤ n →
    ∃ ps : List (List Char × List Char),
      s = (ps.map fun p => p.1 ++ p.2).join ∧
      passGo ci w n s = (ps.map Prod.fst).join ∧
      ∀ p ∈ ps, p.2 = [] ∨ IsPatternMatch ci w p.2
  | n, [], _ => ⟨[], by simp, by rw [passGo_nil]; simp, by simp⟩
  | 0, c :: cs, h => by simp at h
  | n + 1, c :: cs, h => by
      cases hml : matchLen ci w (c :: cs) with
      | some k =>
          obtain ⟨hk2, hklen, -, hpm⟩ := matchLen_spec ci w (c :: cs) k hml
          obtain ⟨ps, he1, he2, he3⟩ := passGo_decomp ci w n ((c :: cs).drop k)
            (by simp only [List.length_drop, List.length_cons] at *; omega)
          refine ⟨([], (c :: cs).take k) :: ps, ?_, ?_, ?_⟩
          · show c :: cs = ([] ++ (c :: cs).take k) ++ (ps.map fun p => p.1 ++ p.2).join
            rw [← he1, List.nil_append, List.take_append_drop]
          · rw [passGo_cons_some ci w n c cs k hml, he2]
            rfl
          · intro p hp
            rcases List.mem_cons.mp hp with hp | hp
            · right
              rw [hp]
              exact hpm
            · exact he3 p hp
      | none =>
          obtain ⟨ps, he1, he2, he3⟩ := passGo_decomp ci w n cs
            (by simp only [List.length_cons] at h; omega)
          refine ⟨([c], []) :: ps, ?_, ?_, ?_⟩
          · show c :: cs = ([c] ++ []) ++ (ps.map fun p => p.1 ++ p.2).join
            rw [← he1]
            rfl
          · rw [passGo_cons_none ci w n c cs hml, he2]
            rfl
          · intro p hp
            rcases List.mem_cons.mp hp with hp | hp
            · left
              rw [hp]
            · exact he3 p hp

/-- Soundness of one `removeWords` replacement pass: the text splits into
kept pieces and deleted chunks, every deleted chunk being a full pattern
match (delimiters included), and the output is the concatenation of the
kept pieces. -/
theorem removeWordPass_decomp (ci : Bool) (w s : List Char) :
    ∃ ps : List (List Char × List Char),
      s = (ps.map fun p => p.1 ++ p.2).join ∧
      removeWordPass ci w s = (ps.map Prod.fst).join ∧
      ∀ p ∈ ps, p.2 = [] ∨ IsPatternMatch ci w p.2 :=
  passGo_decomp ci w s.length s (le_refl _)

/-! ### Whitespace lemmas -/

theorem dropWhile_head_nws {p : Char → Bool} : ∀ (l : List Char),
    (∀ c, l.head? = some c → p c = false) → l.dropWhile p = l
  | [], _ => rfl
  | c :: cs, h => by
      rw [List.dropWhile_cons, if_neg (by simp [h c rfl])]

theorem dropWhile_dropWhile {p : Char → Bool} : ∀ l : List Char,
    (l.dropWhile p).dropWhile p = l.dropWhile p
  | [] => rfl
  | c :: cs => by
      rw [List.dropWhile_cons]
      by_cases hp : p c = true
      · rw [if_pos hp]
        exact dropWhile_dropWhile cs
      · rw [if_neg hp, List.dropWhile_cons, if_neg hp]

theorem head?_dropWhile_false {p : Char → Bool} : ∀ (l : List Char) (c : Char),
    (l.dropWhile p).head? = some c → p c = false
  | [], c, h => by simp at h
  | a :: l, c, h => by
      rw [List.dropWhile_cons] at h
      by_cases hp : p a = true
      · rw [if_pos hp] at h
        exact head?_dropWhile_false l c h
      · rw [if_neg hp] at h
        injection h with h
        cases hb : p a with
        | true => exact absurd hb hp
        | false => rw [← h]; exact hb

theorem dropWhile_append_nws {p : Char → Bool} : ∀ (a b : List Char),
    (∀ c, b.head? = some c → p c = false) →
    List.dropWhile p (a ++ b) = List.dropWhile p a ++ b
  | [], b, h => by simpa using dropWhile_head_nws b h
  | x :: a', b, h => by
      rw [List.cons_append, List.dropWhile_cons, List.dropWhile_cons]
      by_cases hp : p x = true
      · rw [if_pos hp, if_pos hp]
        exact dropWhile_append_nws a' b h
      · rw [if_neg hp, if_neg hp]
        rfl

theorem trimChars_append_left (w0 z : List Char) (hne : w0 ≠ [])
    (h : ∀ c ∈ w0, isWsChar c = false) :
    ∃ y, trimChars (w0 ++ z) = w0 ++ y := by
  have h1 : (w0 ++ z).dropWhile isWsChar = w0 ++ z := by
    apply dropWhile_head_nws
    intro c hc
    cases w0 with
    | nil => exact absurd rfl hne
    | cons a t =>
        have : a = c := by
          rw [List.cons_append] at hc
          injection hc
        rw [← this]
        exact h a (List.mem_cons_self _ _)
  have h2 : (w0 ++ z).reverse.dropWhile isWsChar
      = z.reverse.dropWhile isWsChar ++ w0.reverse := by
    rw [List.reverse_append]
    apply dropWhile_append_nws
    intro c hc
    exact h c (List.mem_reverse.mp (List.mem_of_mem_head? hc))
  unfold trimChars
  rw [h1, h2, List.reverse_append, List.reverse_reverse]
  exact ⟨(z.reverse.dropWhile isWsChar).reverse, rfl⟩

theorem trimChars_append_right (w0 z : List Char) (hne : w0 ≠ [])
    (h : ∀ c ∈ w0, isWsChar c = false) :
    ∃ y, trimChars (z ++ w0) = y ++ w0 := by
  have h1 : (z ++ w0).dropWhile isWsChar = z.dropWhile isWsChar ++ w0 := by
    apply dropWhile_append_nws
    intro c hc
    exact h c (List.mem_of_mem_head? hc)
  have h2 : (z.dropWhile isWsChar ++ w0).reverse.dropWhile isWsChar
      = (z.dropWhile isWsChar ++ w0).reverse := by
    rw [List.reverse_append]
    apply dropWhile_head_nws
    intro c hc
    cases hrev : w0.reverse with
    | nil => exact absurd (by simpa using congrArg List.reverse hrev) hne
    | cons a t =>
        rw [hrev, List.cons_append] at hc
        injection hc with hc
        apply h c
        rw [← List.mem_reverse, hrev, hc]
        exact List.mem_cons_self _ _
  unfold trimChars
  rw [h1, h2, List.reverse_reverse]
  exact ⟨z.dropWhile isWsChar, rfl⟩

theorem collapseGo_cons_nws (b : Bool) (c : Char) (l : List Char)
    (h : isWsChar c = false) : collapseGo b (c :: l) = c :: collapseGo false l := by
  simp [collapseGo, h]

theorem collapseGo_append_left : ∀ (w0 : List Char), w0 ≠ [] →
    (∀ c ∈ w0, isWsChar c = false) → ∀ (b : Bool) (z : List Char),
    collapseGo b (w0 ++ z) = w0 ++ collapseGo false z
  | [], hne, _, _, _ => absurd rfl hne
  | [a], _, h, b, z => by
      show collapseGo b (a :: z) = a :: collapseGo false z
      exact collapseGo_cons_nws b a z (h a (List.mem_cons_self _ _))
  | a :: d :: t, _, h, b, z => by
      show collapseGo b (a :: ((d :: t) ++ z)) = a :: ((d :: t) ++ collapseGo false z)
      rw [collapseGo_cons_nws b a _ (h a (List.mem_cons_self _ _))]
      rw [collapseGo_append_left (d :: t) (by simp)
        (fun x hx => h x (List.mem_cons_of_mem _ hx)) false z]

theorem collapseGo_suffix : ∀ (z w0 : List Char), w0 ≠ [] →
    (∀ c ∈ w0, isWsChar c = false) → ∀ b : Bool,
    ∃ y, collapseGo b (z ++ w0) = y ++ w0
  | [], w0, hne, h, b => by
      refine ⟨[], ?_⟩
      have := collapseGo_append_left w0 hne h b []
      simpa [show collapseGo false ([] : List Char) = [] from rfl] using this
  | c :: z', w0, hne, h, b => by
      by_cases hc : isWsChar c = true
      · obtain ⟨y, hy⟩ := collapseGo_suffix z' w0 hne h true
        cases b with
        | true =>
            refine ⟨y, ?_⟩
            show collapseGo true (c :: (z' ++ w0)) = y ++ w0
            simp only [collapseGo, hc, if_true]
            exact hy
        | false =>
            refine ⟨' ' :: y, ?_⟩
            show collapseGo false (c :: (z' ++ w0)) = (' ' :: y) ++ w0
            simp only [collapseGo, hc, if_true]
            rw [hy]
            rfl
      · obtain ⟨y, hy⟩ := collapseGo_suffix z' w0 hne h false
        refine ⟨c :: y, ?_⟩
        have hcf : isWsChar c = false := by simpa using hc
        show collapseGo b (c :: (z' ++ w0)) = (c :: y) ++ w0
        rw [collapseGo_cons_nws b c _ hcf, hy]
        rfl

theorem cleanChars_append_left (w0 z : List Char) (hne : w0 ≠ [])
    (h : ∀ c ∈ w0, isWsChar c = false) :
    ∃ y, cleanChars (w0 ++ z) = w0 ++ y := by
  obtain ⟨y1, hy1⟩ := trimChars_append_left w0 z hne h
  unfold cleanChars
  rw [hy1, collapseGo_append_left w0 hne h false y1]
  exact ⟨collapseGo false y1, rfl⟩

theorem cleanChars_append_right (w0 z : List Char) (hne : w0 ≠ [])
    (h : ∀ c ∈ w0, isWsChar c = false) :
    ∃ y, cleanChars (z ++ w0) = y ++ w0 := by
  obtain ⟨y1, hy1⟩ := trimChars_append_right w0 z hne h
  unfold cleanChars
  rw [hy1]
  exact collapseGo_suffix y1 w0 hne h false

theorem trimHead_nws (x : List Char) (hx : ∀ c, x.head? = some c → isWsChar c = false) :
    ((x.reverse.dropWhile isWsChar).reverse).dropWhile isWsChar
      = (x.reverse.dropWhile isWsChar).reverse := by
  apply dropWhile_head_nws
  intro c hc
  apply hx
  have hsplit : x = (x.reverse.dropWhile isWsChar).reverse
      ++ (x.reverse.takeWhile isWsChar).reverse := by
    rw [← List.reverse_append, List.takeWhile_append_dropWhile, List.reverse_reverse]
  rw [hsplit]
  cases hdt : (x.reverse.dropWhile isWsChar).reverse with
  | nil => rw [hdt] at hc; simp at hc
  | cons a t =>
      rw [hdt] at hc
      injection hc with hc
      rw [← hc]
      simp

/-- underscore.string `trim` is idempotent at the text level. -/
theorem trimChars_idem (l : List Char) : trimChars (trimChars l) = trimChars l := by
  have hx : ∀ c, (l.dropWhile isWsChar).head? = some c → isWsChar c = false :=
    fun c hc => head?_dropWhile_false l c hc
  show ((((((l.dropWhile isWsChar).reverse.dropWhile isWsChar).reverse).dropWhile
    isWsChar).reverse).dropWhile isWsChar).reverse = trimChars l
  rw [trimHead_nws (l.dropWhile isWsChar) hx, List.reverse_reverse, dropWhile_dropWhile]
  rfl

/-! ### Word-fold and shape lemmas -/

theorem nws_of_nb (c : Char) (h : boundaryChar c = false) : isWsChar c = false := by
  simp only [boundaryChar, Bool.or_eq_false_iff] at h
  exact h.1

theorem removeWordsTexts_append_nb (ci : Bool) (w0 : List Char)
    (h : ∀ c ∈ w0, boundaryChar c = false) :
    ∀ (words : List (List Char)) (rest : List Char),
    removeWordsTexts words ci (w0 ++ rest) = w0 ++ removeWordsTexts words ci rest
  | [], _ => rfl
  | w :: ws, rest => by
      show removeWordsTexts ws ci (removeWordPass ci w (w0 ++ rest))
        = w0 ++ removeWordsTexts ws ci (removeWordPass ci w rest)
      rw [removeWordPass_append_nb ci w w0 h rest]
      exact removeWordsTexts_append_nb ci w0 h ws (removeWordPass ci w rest)

theorem removeWordsTexts_suffix_nb (ci : Bool) (w0 : List Char)
    (h : ∀ c ∈ w0, boundaryChar c = false) :
    ∀ (words : List (List Char)) (z : List Char),
    ∃ y, removeWordsTexts words ci (z ++ w0) = y ++ w0
  | [], z => ⟨z, rfl⟩
  | w :: ws, z => by
      obtain ⟨y1, hy1⟩ := removeWordPass_suffix_nb ci w w0 h z.length z (le_refl _)
      show ∃ y, removeWordsTexts ws ci (removeWordPass ci w (z ++ w0)) = y ++ w0
      rw [hy1]
      exact removeWordsTexts_suffix_nb ci w0 h ws y1

theorem applyTexts_text_shape (f : List Char → List (String × String) → Nat → List Char)
    (c : Corpus) (st : Store) (id : Nat) (hid : id ∈ c.docIds) (d : Document)
    (hget : (applyTexts f c st).get? id = some d) :
    ∃ t0 a0 i, d = ⟨f t0 a0 i, a0⟩ := by
  obtain ⟨g, d0, hm, he⟩ := updateFold_get_mem _ st id
    (by rw [applyTexts_ids]; exact hid) d hget
  obtain ⟨q, hq, hqe⟩ := List.mem_map.mp hm
  have hg : g = fun d => ⟨f d.text d.attributes q.1, d.attributes⟩ :=
    (congrArg Prod.snd hqe).symm
  exact ⟨d0.text, d0.attributes, q.1, by rw [he, hg]⟩

/-! ### groupBy lemmas -/

theorem findGroup_addToGroup : ∀ (acc : List (String × Corpus)) (k k' : String) (id : Nat),
    findGroup (addToGroup acc k id) k' =
      if k' = k then
        match findGroup acc k with
        | some g => some ⟨g.docIds ++ [id]⟩
        | none => some ⟨[id]⟩
      else findGroup acc k'
  | [], k, k', id => by
      by_cases h : k' = k
      · simp [addToGroup, findGroup, h]
      · simp [addToGroup, findGroup, h, Ne.symm h]
  | (k0, g0) :: rest, k, k', id => by
      by_cases h0 : k0 = k
      · subst h0
        by_cases h1 : k' = k0
        · subst h1
          simp [addToGroup, findGroup]
        · simp [addToGroup, findGroup, Ne.symm h1, h1]
      · by_cases h1 : k0 = k'
        · subst h1
          simp [addToGroup, findGroup, h0]
        · simp only [addToGroup, if_neg h0, findGroup, if_neg h1]
          rw [findGroup_addToGroup rest k k' id]

theorem addToGroup_keys : ∀ (acc : List (String × Corpus)) (k : String) (id : Nat),
    (addToGroup acc k id).map Prod.fst =
      if k ∈ acc.map Prod.fst then acc.map Prod.fst else acc.map Prod.fst ++ [k]
  | [], k, id => by simp [addToGroup]
  | (k0, g0) :: rest, k, id => by
      by_cases h0 : k0 = k
      · subst h0
        simp [addToGroup]
      · simp only [addToGroup, if_neg h0, List.map_cons]
        rw [addToGroup_keys rest k id]
        by_cases hm : k ∈ rest.map Prod.fst
        · simp [hm, Ne.symm h0]
        · simp [hm, Ne.symm h0]

theorem addToGroup_keys_nodup (acc : List (String × Corpus)) (k : String) (id : Nat)
    (h : (acc.map Prod.fst).Nodup) : ((addToGroup acc k id).map Prod.fst).Nodup := by
  rw [addToGroup_keys]
  by_cases hm : k ∈ acc.map Prod.fst
  · rw [if_pos hm]
    exact h
  · rw [if_neg hm]
    simp [List.nodup_append, h, hm]

theorem groupByGo_spec (f : List Char → List (String × String) → Nat → String)
    (st : Store) : ∀ (rest : List (Nat × Nat)) (acc : List (String × Corpus))
    (seen : List (Nat × Nat)),
    (acc.map Prod.fst).Nodup →
    (∀ k, match findGroup acc k with
      | some g => g.docIds = ((seen.filter fun q => groupKey f st q.1 q.2 = k).map Prod.snd)
      | none => (seen.filter fun q => groupKey f st q.1 q.2 = k) = []) →
    ((groupByGo f st rest acc).map Prod.fst).Nodup ∧
    (∀ k, match findGroup (groupByGo f st rest acc) k with
      | some g => g.docIds = (((seen ++ rest).filter fun q => groupKey f st q.1 q.2 = k).map Prod.snd)
      | none => ((seen ++ rest).filter fun q => groupKey f st q.1 q.2 = k) = [])
  | [], acc, seen, hnd, hinv => by
      simp only [groupByGo, List.append_nil]
      exact ⟨hnd, hinv⟩
  | (i, id) :: rest', acc, seen, hnd, hinv => by
      have hstep := groupByGo_spec f st rest' (addToGroup acc (groupKey f st i id) id)
        (seen ++ [(i, id)])
        (addToGroup_keys_nodup acc (groupKey f st i id) id hnd)
        (by
          intro k
          rw [findGroup_addToGroup]
          by_cases hk : k = groupKey f st i id
          · rw [if_pos hk]
            subst hk
            cases hg : findGroup acc (groupKey f st i id) with
            | some g =>
                have hinvk : g.docIds
                    = ((seen.filter fun q =>
                        groupKey f st q.1 q.2 = groupKey f st i id).map Prod.snd) := by
                  have := hinv (groupKey f st i id)
                  rwa [hg] at this
                show g.docIds ++ [id]
                  = (((seen ++ [(i, id)]).filter fun q =>
                      groupKey f st q.1 q.2 = groupKey f st i id).map Prod.snd)
                rw [List.filter_append, List.map_append, ← hinvk]
                congr 1
                simp
            | none =>
                have hinvk : (seen.filter fun q =>
                    groupKey f st q.1 q.2 = groupKey f st i id) = [] := by
                  have := hinv (groupKey f st i id)
                  rwa [hg] at this
                show [id]
                  = (((seen ++ [(i, id)]).filter fun q =>
                      groupKey f st q.1 q.2 = groupKey f st i id).map Prod.snd)
                rw [List.filter_append, hinvk]
                simp
          · rw [if_neg hk]
            have hne : ¬ (groupKey f st i id = k) := fun e => hk e.symm
            cases hg : findGroup acc k with
            | some g =>
                have hinvk : g.docIds
                    = ((seen.filter fun q => groupKey f st q.1 q.2 = k).map Prod.snd) := by
                  have := hinv k
                  rwa [hg] at this
                show g.docIds
                  = (((seen ++ [(i, id)]).filter fun q => groupKey f st q.1 q.2 = k).map Prod.snd)
                rw [List.filter_append, List.map_append, ← hinvk]
                simp [hne]
            | none =>
                have hinvk : (seen.filter fun q => groupKey f st q.1 q.2 = k) = [] := by
                  have := hinv k
                  rwa [hg] at this
                show ((seen ++ [(i, id)]).filter fun q => groupKey f st q.1 q.2 = k) = []
                rw [List.filter_append, hinvk]
                simp [hne])
      show ((groupByGo f st rest' (addToGroup acc (groupKey f st i id) id)).map Prod.fst).Nodup ∧ _
      refine ⟨hstep.1, ?_⟩
      intro k
      have := hstep.2 k
      rwa [List.append_assoc] at this

theorem addToGroup_join_perm (acc : List (String × Corpus)) (k : String) (id : Nat) :
    (((addToGroup acc k id).map fun p => p.2.docIds).join).Perm
      (((acc.map fun p => p.2.docIds).join) ++ [id]) := by
  induction acc with
  | nil => simp [addToGroup]
  | cons hd rest ih =>
      obtain ⟨k0, g0⟩ := hd
      by_cases h0 : k0 = k
      · simp only [addToGroup, if_pos h0, List.map_cons, List.join]
        have h1 : List.Perm ((g0.docIds ++ [id]) ++ (rest.map fun p => p.2.docIds).join)
            (g0.docIds ++ ((rest.map fun p => p.2.docIds).join ++ [id])) := by
          rw [List.append_assoc]
          exact List.Perm.append_left _ List.perm_append_comm
        have h2 : g0.docIds ++ ((rest.map fun p => p.2.docIds).join ++ [id])
            = (g0.docIds ++ (rest.map fun p => p.2.docIds).join) ++ [id] :=
          (List.append_assoc _ _ _).symm
        rw [h2] at h1
        exact h1
      · simp only [addToGroup, if_neg h0, List.map_cons, List.join]
        have h1 := List.Perm.append_left g0.docIds ih
        have h2 : g0.docIds ++ ((rest.map fun p => p.2.docIds).join ++ [id])
            = (g0.docIds ++ (rest.map fun p => p.2.docIds).join) ++ [id] :=
          (List.append_assoc _ _ _).symm
        rw [h2] at h1
        exact h1

theorem groupByGo_join_perm (f : List Char → List (String × String) → Nat → String)
    (st : Store) : ∀ (rest : List (Nat × Nat)) (acc : List (String × Corpus)),
    (((groupByGo f st rest acc).map fun p => p.2.docIds).join).Perm
      (((acc.map fun p => p.2.docIds).join) ++ rest.map Prod.snd)
  | [], acc => by simp [groupByGo]
  | (i, id) :: rest', acc => by
      show (((groupByGo f st rest' (addToGroup acc (groupKey f st i id) id)).map
        fun p => p.2.docIds).join).Perm _
      have h1 := groupByGo_join_perm f st rest' (addToGroup acc (groupKey f st i id) id)
      have h2 := List.Perm.append_right (rest'.map Prod.snd)
        (addToGroup_join_perm acc (groupKey f st i id) id)
      have h3 := h1.trans h2
      have h4 : ((acc.map fun p => p.2.docIds).join ++ [id]) ++ rest'.map Prod.snd
          = (acc.map fun p => p.2.docIds).join ++ (((i, id) :: rest').map Prod.snd) := by
        rw [List.append_assoc]
        rfl
      rwa [h4] at h3

/-! ### setAttributes helpers -/

theorem setAttributes_ids (xs : List SAElem) (c : Corpus)
    (hlen : xs.length = c.docIds.length) :
    (((c.docIds.zip (xs.map SAElem.getObj)).map fun p =>
      (p.1, fun (d : Document) => (⟨d.text, p.2⟩ : Document))).map Prod.fst)
      = c.docIds := by
  rw [List.map_map]
  exact List.map_fst_zip _ _ (le_of_eq (by rw [List.length_map, hlen]))

theorem setAttributes_get (xs : List SAElem) (c : Corpus) (st : Store)
    (hnd : c.docIds.Nodup) (hlen : xs.length = c.docIds.length)
    (i id : Nat) (a : List (String × String))
    (hi : c.docIds.get? i = some id) (ha : (xs.map SAElem.getObj).get? i = some a) :
    (updateFold ((c.docIds.zip (xs.map SAElem.getObj)).map fun p =>
      (p.1, fun (d : Document) => (⟨d.text, p.2⟩ : Document))) st).get? id
      = (st.get? id).map fun d => ⟨d.text, a⟩ := by
  apply updateFold_get_nodup
  · rw [setAttributes_ids xs c hlen]
    exact hnd
  · exact List.mem_map.mpr ⟨(id, a), List.get?_mem (zip_get? _ _ i id a hi ha), rfl⟩

/-! ### Claim theorems -/

/-- C2: `removeWords(["cat"])` applied to a corpus holding the document
`"the cat. sat"` leaves it with text `"the sat"` (the bounded occurrence and
its delimiters are removed, then `clean` runs); applied to a corpus holding
`"a category item"` it leaves the text unchanged — boundary-anchored
matching, never bare substring removal. -/
theorem c2_removeWords_boundary_examples :
    (Corpus.removeWords ["cat".toList] false ⟨[0]⟩ [mkDoc "the cat. sat"]).2
        = [mkDoc "the sat"] ∧
    (Corpus.removeWords ["cat".toList] false ⟨[0]⟩ [mkDoc "a category item"]).2
        = [mkDoc "a category item"] :=
  ⟨rfl, rfl⟩

/-- C7: the corpus built from `["Hello World!", "Foo, Bar; Baz-Qux"]`, after
`.toLower().removeInterpunctuation().clean()`, holds exactly the two texts
`"hello world"` and `"foo bar baz qux"`. -/
theorem c7_pipeline_example :
    Corpus.init (.arr [.str "Hello World!", .str "Foo, Bar; Baz-Qux"]) []
        = .ok (⟨[0, 1]⟩, [mkDoc "Hello World!", mkDoc "Foo, Bar; Baz-Qux"]) ∧
    (Corpus.clean
      (Corpus.removeInterpunctuation
        (Corpus.toLower ⟨[0, 1]⟩ [mkDoc "Hello World!", mkDoc "Foo, Bar; Baz-Qux"]).1
        (Corpus.toLower ⟨[0, 1]⟩ [mkDoc "Hello World!", mkDoc "Foo, Bar; Baz-Qux"]).2).1
      (Corpus.removeInterpunctuation
        (Corpus.toLower ⟨[0, 1]⟩ [mkDoc "Hello World!", mkDoc "Foo, Bar; Baz-Qux"]).1
        (Corpus.toLower ⟨[0, 1]⟩ [mkDoc "Hello World!", mkDoc "Foo, Bar; Baz-Qux"]).2).2)
        = (⟨[0, 1]⟩, [mkDoc "hello world", mkDoc "foo bar baz qux"]) :=
  ⟨rfl, rfl⟩

/-- C8: `trim` is idempotent — applying `trim` to the result of `trim`
returns the identical corpus and store (in particular identical document
texts). -/
theorem c8_trim_idempotent (c : Corpus) (st : Store) :
    Corpus.trim c (Corpus.trim c st).2 = Corpus.trim c st := by
  unfold Corpus.trim Corpus.apply
  refine Prod.ext rfl ?_
  show applyTexts (fun t _ _ => trimChars t) c
    (applyTexts (fun t _ _ => trimChars t) c st)
      = applyTexts (fun t _ _ => trimChars t) c st
  apply updateFold_noop
  intro p hp d hget
  obtain ⟨q, hq, hqe⟩ := List.mem_map.mp hp
  have hidmem : q.2 ∈ c.docIds :=
    List.get?_mem (List.mem_enum_iff_get?.mp hq)
  have hget2 : (applyTexts (fun t _ _ => trimChars t) c st).get? q.2 = some d := by
    have hid : p.1 = q.2 := (congrArg Prod.fst hqe).symm
    rwa [hid] at hget
  obtain ⟨t0, a0, i, hd⟩ :=
    applyTexts_text_shape (fun t _ _ => trimChars t) c st q.2 hidmem d hget2
  have htext : trimChars d.text = d.text := by
    have : d.text = trimChars t0 := congrArg Document.text hd
    rw [this, trimChars_idem]
  have hp2 : p.2 = fun d => (⟨trimChars d.text, d.attributes⟩ : Document) :=
    (congrArg Prod.snd hqe).symm
  rw [hp2]
  show (⟨trimChars d.text, d.attributes⟩ : Document) = d
  rw [htext]

/-- C1 counterexample: on a corpus holding the single document
`"a cat cat b"`, both occurrences of `"cat"` are bounded by whitespace in
the original text, yet `removeWords(["cat"])` leaves `"acat b"` — the first
match consumes the delimiter the second occurrence needed, so the second
occurrence survives.  The claim predicts a final text with both occurrences
gone: `"a b"` under the word-only reading of "each bounded word occurrence
removed", `"ab"` under the delimiter-inclusive reading.  Either way the
claim fails at this input. -/
theorem c1_removeWords_counterexample :
    (Corpus.removeWords ["cat".toList] false ⟨[0]⟩ [mkDoc "a cat cat b"]).2
        = [mkDoc "acat b"] ∧
    claimIdealW ["cat".toList] "a cat cat b".toList = "a b".toList ∧
    claimIdealS ["cat".toList] "a cat cat b".toList = "ab".toList ∧
    "acat b".toList ≠ "a b".toList ∧ "acat b".toList ≠ "ab".toList :=
  ⟨rfl, rfl, rfl, by decide, by decide⟩

/-- C1 (amended): `removeWords(words, caseInsensitive)` sets every
document's text to the word-by-word single-pass replacement fold followed
by the automatic `clean`; each single pass deletes a set of disjoint
chunks found in one left-to-right scan, every deleted chunk being one or
more whitespace/period delimiters, the word, and exactly one delimiter —
so every deletion is of a bounded occurrence, but a bounded occurrence
whose left delimiter was consumed by an adjacent earlier match survives
the pass. -/
theorem c1_removeWords_single_pass (words : List (List Char)) (ci : Bool)
    (c : Corpus) (st : Store) (hnd : c.docIds.Nodup) (i id : Nat)
    (hi : c.docIds.get? i = some id) :
    textAt (Corpus.removeWords words ci c st).2 id
        = cleanChars (removeWordsTexts words ci (textAt st id)) ∧
    ∀ (w s : List Char), ∃ ps : List (List Char × List Char),
      s = (ps.map fun p => p.1 ++ p.2).join ∧
      removeWordPass ci w s = (ps.map Prod.fst).join ∧
      ∀ p ∈ ps, p.2 = [] ∨ IsPatternMatch ci w p.2 :=
  ⟨removeWords_textAt words ci c st hnd i id hi,
   fun w s => removeWordPass_decomp ci w s⟩

theorem c1_removeWords_single_pass_witness :
    (Corpus.mk [0]).docIds.Nodup ∧ (Corpus.mk [0]).docIds.get? 0 = some 0 ∧
    textAt (Corpus.removeWords ["cat".toList] false ⟨[0]⟩ [mkDoc "a cat cat b"]).2 0
        = cleanChars (removeWordsTexts ["cat".toList] false
            (textAt [mkDoc "a cat cat b"] 0)) :=
  ⟨by decide, rfl,
   (c1_removeWords_single_pass ["cat".toList] false ⟨[0]⟩ [mkDoc "a cat cat b"]
     (by decide) 0 0 rfl).1⟩

/-- C9: the deleted region of a `removeWords` match is one-or-more
whitespace/period delimiters, the word, and exactly one delimiter, all
replaced by the empty string (first conjunct: `"the cat sat"` becomes
`"thesat"`, the neighbours joined, which the automatic clean cannot undo;
second conjunct: every deleted chunk of a pass has that shape).  A word
occurring at the very start (third conjunct) or at the very end (fourth
conjunct) of a document's text is never removed: the final text still
starts (resp. ends) with it. -/
theorem c9_removeWords_delimiters_consumed :
    ((Corpus.removeWords ["cat".toList] false ⟨[0]⟩ [mkDoc "the cat sat"]).2
        = [mkDoc "thesat"]) ∧
    (∀ (ci : Bool) (w s : List Char), ∃ ps : List (List Char × List Char),
      s = (ps.map fun p => p.1 ++ p.2).join ∧
      removeWordPass ci w s = (ps.map Prod.fst).join ∧
      ∀ p ∈ ps, p.2 = [] ∨ IsPatternMatch ci w p.2) ∧
    (∀ (words : List (List Char)) (ci : Bool) (w0 rest : List Char),
      (∀ c ∈ w0, boundaryChar c = false) → w0 ≠ [] →
      ∃ y, cleanChars (removeWordsTexts words ci (w0 ++ rest)) = w0 ++ y) ∧
    (∀ (words : List (List Char)) (ci : Bool) (w0 z : List Char),
      (∀ c ∈ w0, boundaryChar c = false) → w0 ≠ [] →
      ∃ y, cleanChars (removeWordsTexts words ci (z ++ w0)) = y ++ w0) := by
  refine ⟨rfl, fun ci w s => removeWordPass_decomp ci w s, ?_, ?_⟩
  · intro words ci w0 rest hb hne
    rw [removeWordsTexts_append_nb ci w0 hb words rest]
    exact cleanChars_append_left w0 _ hne (fun c hc => nws_of_nb c (hb c hc))
  · intro words ci w0 z hb hne
    obtain ⟨y1, hy1⟩ := removeWordsTexts_suffix_nb ci w0 hb words z
    rw [hy1]
    exact cleanChars_append_right w0 y1 hne (fun c hc => nws_of_nb c (hb c hc))

theorem c9_removeWords_delimiters_consumed_witness :
    ((∀ c ∈ "cat".toList, boundaryChar c = false) ∧ "cat".toList ≠ []) ∧
    (∃ y, cleanChars (removeWordsTexts ["sat".toList] false
        ("cat".toList ++ " sat here".toList)) = "cat".toList ++ y) :=
  ⟨⟨by decide, by decide⟩,
   c9_removeWords_delimiters_consumed.2.2.1 ["sat".toList] false "cat".toList
     " sat here".toList (by decide) (by decide)⟩

/-- C3 counterexample: with two documents and an empty attribute sequence
the lengths differ, so the claim demands `LengthMismatch`; the code instead
raises `InvalidArgument`, because the object-array check
(validate.io-object-array) rejects empty arrays before the length is ever
compared.  The corpus is left unchanged. -/
theorem c3_setAttributes_counterexample :
    Corpus.setAttributes (.arrv []) ⟨[0, 1]⟩ [mkDoc "a", mkDoc "b"]
        = (.error .invalidArgument, [mkDoc "a", mkDoc "b"]) ∧
    Err.invalidArgument ≠ Err.lengthMismatch :=
  ⟨rfl, by decide⟩

/-- C3 (amended): for every corpus and every *nonempty* sequence of
attribute mappings, `setAttributes` raises `LengthMismatch` and leaves the
store unchanged when the length differs from `nDocs`; with equal lengths it
returns the same corpus and positionally replaces each document's
attributes wholesale (texts untouched, unrelated documents untouched).  An
empty sequence instead fails the object-array type check with
`InvalidArgument`, store unchanged. -/
theorem c3_setAttributes_amended (xs : List SAElem) (c : Corpus) (st : Store)
    (hne : xs ≠ []) (hobj : ∀ e ∈ xs, SAElem.isObjE e = true) :
    (xs.length ≠ c.docIds.length →
      Corpus.setAttributes (.arrv xs) c st = (.error .lengthMismatch, st)) ∧
    (xs.length = c.docIds.length → c.docIds.Nodup →
      (Corpus.setAttributes (.arrv xs) c st).1 = .ok c ∧
      (∀ (i id : Nat) (a : List (String × String)),
        c.docIds.get? i = some id → (xs.map SAElem.getObj).get? i = some a →
        ((Corpus.setAttributes (.arrv xs) c st).2).get? id
          = (st.get? id).map fun d => ⟨d.text, a⟩) ∧
      (∀ id, id ∉ c.docIds →
        ((Corpus.setAttributes (.arrv xs) c st).2).get? id = st.get? id)) ∧
    (∀ (c2 : Corpus) (st2 : Store),
      Corpus.setAttributes (.arrv []) c2 st2 = (.error .invalidArgument, st2)) := by
  have hobjarr : isObjectArraySA (.arrv xs) = true := by
    cases xs with
    | nil => exact absurd rfl hne
    | cons e es =>
        simp only [isObjectArraySA, List.isEmpty_cons, Bool.not_false, Bool.true_and]
        rw [List.all_eq_true]
        exact hobj
  refine ⟨?_, ?_, fun c2 st2 => rfl⟩
  · intro hlen
    simp [Corpus.setAttributes, hobjarr, hlen]
  · intro hlen hnd
    have hred : (Corpus.setAttributes (.arrv xs) c st).2
        = updateFold ((c.docIds.zip (xs.map SAElem.getObj)).map fun p =>
            (p.1, fun (d : Document) => (⟨d.text, p.2⟩ : Document))) st := by
      simp [Corpus.setAttributes, hobjarr, hlen]
    refine ⟨by simp [Corpus.setAttributes, hobjarr, hlen], ?_, ?_⟩
    · intro i id a hi ha
      rw [hred]
      exact setAttributes_get xs c st hnd hlen i id a hi ha
    · intro id hid
      rw [hred]
      apply updateFold_get_not
      rw [setAttributes_ids xs c hlen]
      exact hid

theorem c3_setAttributes_amended_witness :
    (([SAElem.objE [("k", "v")], SAElem.objE []] : List SAElem) ≠ [] ∧
      (∀ e ∈ ([SAElem.objE [("k", "v")], SAElem.objE []] : List SAElem),
        SAElem.isObjE e = true) ∧
      ([SAElem.objE [("k", "v")], SAElem.objE []] : List SAElem).length
        ≠ (Corpus.mk [0]).docIds.length) ∧
    Corpus.setAttributes (.arrv [SAElem.objE [("k", "v")], SAElem.objE []])
        ⟨[0]⟩ [mkDoc "a"]
      = (.error .lengthMismatch, [mkDoc "a"]) :=
  ⟨⟨by decide, by decide, by decide⟩,
   (c3_setAttributes_amended [SAElem.objE [("k", "v")], SAElem.objE []] ⟨[0]⟩
     [mkDoc "a"] (by decide) (by decide)).1 (by decide)⟩

/-- C10: `setAttributes(arr)` raises `InvalidArgument` whenever `arr` is
not a sequence of mappings — a non-array, or an array containing a
non-mapping element (strings, mixed content) — and this outcome holds
regardless of the corpus's `nDocs` (the type check precedes the length
check), with the store returned exactly as it was. -/
theorem c10_setAttributes_type_first (v : SAInput) (c : Corpus) (st : Store)
    (h : v = .notArr ∨ ∃ xs, v = .arrv xs ∧ ∃ e ∈ xs, SAElem.isObjE e = false) :
    Corpus.setAttributes v c st = (.error .invalidArgument, st) := by
  have hfalse : isObjectArraySA v = false := by
    rcases h with rfl | ⟨xs, rfl, e, he, hef⟩
    · rfl
    · simp only [isObjectArraySA]
      have hall : xs.all SAElem.isObjE = false := by
        cases hv : xs.all SAElem.isObjE with
        | false => rfl
        | true =>
            rw [List.all_eq_true] at hv
            rw [hv e he] at hef
            exact absurd hef (by simp)
      rw [hall, Bool.and_false]
  cases v with
  | notArr => rfl
  | arrv xs => simp [Corpus.setAttributes, hfalse]

theorem c10_setAttributes_type_first_witness :
    ((SAInput.arrv [SAElem.nonObjE] = SAInput.notArr ∨
      ∃ xs, SAInput.arrv [SAElem.nonObjE] = SAInput.arrv xs ∧
        ∃ e ∈ xs, SAElem.isObjE e = false) ∧
      ([SAElem.nonObjE] : List SAElem).length = (Corpus.mk [0]).docIds.length) ∧
    Corpus.setAttributes (.arrv [SAElem.nonObjE]) ⟨[0]⟩ [mkDoc "a"]
        = (.error .invalidArgument, [mkDoc "a"]) :=
  ⟨⟨Or.inr ⟨[SAElem.nonObjE], rfl, SAElem.nonObjE, List.mem_cons_self _ _, rfl⟩, rfl⟩,
   c10_setAttributes_type_first (.arrv [SAElem.nonObjE]) ⟨[0]⟩ [mkDoc "a"]
     (Or.inr ⟨[SAElem.nonObjE], rfl, SAElem.nonObjE, List.mem_cons_self _ _, rfl⟩)⟩

/-- C4: the constructor resolves its input by the five-shape priority test:
absent input yields an empty corpus; a single string yields one freshly
wrapped Document; a single Document-shaped value is adopted by reference
(store unchanged); an array of strings yields one fresh Document per
string, order-preserving; an array of Document-shaped values is adopted by
reference, order-preserving; any other shape raises `InvalidArgument`; and
whenever the input matches a shape, `nDocs` equals the implied document
count. -/
theorem c4_constructor_shapes (v : CtorInput) (st : Store) :
    (v = .undef → Corpus.init v st = .ok (⟨[]⟩, st)) ∧
    (∀ s, v = .str s → Corpus.init v st = .ok (⟨[st.length]⟩, st ++ [mkDoc s])) ∧
    (∀ id, v = .docRef id → Corpus.init v st = .ok (⟨[id]⟩, st)) ∧
    (∀ ss : List String, v = .arr (ss.map Elem.str) →
      Corpus.init v st = .ok (⟨List.range' st.length ss.length⟩, st ++ ss.map mkDoc)) ∧
    (∀ ids : List Nat, v = .arr (ids.map Elem.docRef) →
      Corpus.init v st = .ok (⟨ids⟩, st)) ∧
    (impliedDocCount v = none → Corpus.init v st = .error .invalidArgument) ∧
    (∀ n, impliedDocCount v = some n →
      ∃ c' st', Corpus.init v st = .ok (c', st') ∧ c'.docIds.length = n) := by
  refine ⟨?_, ?_, ?_, ?_, ?_, ?_, ?_⟩
  · rintro rfl
    rfl
  · rintro s rfl
    rfl
  · rintro id rfl
    rfl
  · rintro ss rfl
    cases ss with
    | nil => simp [Corpus.init, isStringArrayE, isDocArrayE, List.range']
    | cons s0 ss' =>
        have h1 : isStringArrayE ((s0 :: ss').map Elem.str) = true := by
          simp [isStringArrayE, List.all_map, Function.comp, Elem.isStr]
        simp only [Corpus.init, h1]
        simp [List.map_map, Function.comp, Elem.getStr]
  · rintro ids rfl
    have hda : isDocArrayE (ids.map Elem.docRef) = true := by
      simp [isDocArrayE, List.all_map, Function.comp, Elem.isDocE]
    have hsaf : isStringArrayE (ids.map Elem.docRef) = false := by
      cases ids with
      | nil => rfl
      | cons i ids' => simp [isStringArrayE, Elem.isStr]
    have hmap : List.map (Elem.getRef ∘ Elem.docRef) ids = ids := List.map_id ids
    simp [Corpus.init, hsaf, hda, List.map_map, hmap]
  · intro hnone
    cases v with
    | undef => simp [impliedDocCount] at hnone
    | str s => simp [impliedDocCount] at hnone
    | docRef id => simp [impliedDocCount] at hnone
    | other => rfl
    | arr xs =>
        simp only [impliedDocCount] at hnone
        split at hnone
        next hcond => exact absurd hnone (by simp)
        next hcond =>
          rw [Bool.or_eq_true, not_or] at hcond
          obtain ⟨hs, hd⟩ := hcond
          have hsaf : isStringArrayE xs = false := by
            simp only [isStringArrayE]
            have : xs.all Elem.isStr = false := by simpa using hs
            rw [this, Bool.and_false]
          have hdaf : isDocArrayE xs = false := by
            simp only [isDocArrayE]
            simpa using hd
          simp [Corpus.init, hsaf, hdaf]
  · intro n hsome
    cases v with
    | undef =>
        refine ⟨⟨[]⟩, st, rfl, ?_⟩
        have : (0 : Nat) = n := by simpa [impliedDocCount] using hsome
        simpa using this
    | str s =>
        refine ⟨⟨[st.length]⟩, st ++ [mkDoc s], rfl, ?_⟩
        have : (1 : Nat) = n := by simpa [impliedDocCount] using hsome
        simpa using this
    | docRef id =>
        refine ⟨⟨[id]⟩, st, rfl, ?_⟩
        have : (1 : Nat) = n := by simpa [impliedDocCount] using hsome
        simpa using this
    | other => simp [impliedDocCount] at hsome
    | arr xs =>
        simp only [impliedDocCount] at hsome
        split at hsome
        next hcond =>
          have hn : xs.length = n := by
            injection hsome
          by_cases hsa : isStringArrayE xs = true
          · refine ⟨⟨List.range' st.length xs.length⟩,
              st ++ xs.map (fun e => mkDoc e.getStr), ?_, ?_⟩
            · simp [Corpus.init, hsa]
            · simpa [List.length_range'] using hn
          · have hsaf : isStringArrayE xs = false := by simpa using hsa
            have hda : isDocArrayE xs = true := by
              cases hor : xs.all Elem.isStr with
              | true =>
                  cases xs with
                  | nil => rfl
                  | cons e es => simp [isStringArrayE, hor] at hsaf
              | false =>
                  rw [hor] at hcond
                  simpa [isDocArrayE] using hcond
            refine ⟨⟨xs.map Elem.getRef⟩, st, ?_, ?_⟩
            · simp [Corpus.init, hsaf, hda]
            · simpa [List.length_map] using hn
        next hcond => simp at hsome

theorem c4_constructor_shapes_witness :
    ((CtorInput.arr [.str "a", .str "b"] : CtorInput)
        = .arr (["a", "b"].map Elem.str)) ∧
    Corpus.init (.arr [.str "a", .str "b"]) []
        = .ok (⟨[0, 1]⟩, [mkDoc "a", mkDoc "b"]) := by
  have h := (c4_constructor_shapes (.arr [.str "a", .str "b"]) []).2.2.2.1 ["a", "b"] rfl
  exact ⟨rfl, h⟩

/-- C5: `map(fn)` returns a corpus listing exactly the receiver's Document
references in the same order (same `nDocs`, shared objects); for each
position `i` the referenced Document's text is overwritten in place with
`fn(text, attributes, i)` (attributes kept), so the receiver's documents
carry the new texts as well; documents not referenced by the receiver are
untouched. -/
theorem c5_map_shares_documents
    (f : List Char → List (String × String) → Nat → List Char)
    (c : Corpus) (st : Store) (hnd : c.docIds.Nodup) :
    (Corpus.map f c st).1.docIds = c.docIds ∧
    (∀ (i id : Nat), c.docIds.get? i = some id →
      ((Corpus.map f c st).2).get? id
        = (st.get? id).map fun d => ⟨f d.text d.attributes i, d.attributes⟩) ∧
    (∀ id, id ∉ c.docIds → ((Corpus.map f c st).2).get? id = st.get? id) :=
  ⟨rfl,
   fun i id hi => applyTexts_get_mem f c st hnd i id hi,
   fun id hid => applyTexts_get_not f c st id hid⟩

theorem c5_map_shares_documents_witness :
    (Corpus.mk [0]).docIds.Nodup ∧
    (Corpus.map (fun t _ _ => t ++ "!".toList) ⟨[0]⟩ [mkDoc "hi"]).1.docIds = [0] ∧
    ((Corpus.map (fun t _ _ => t ++ "!".toList) ⟨[0]⟩ [mkDoc "hi"]).2).get? 0
        = some (mkDoc "hi!") := by
  have h := c5_map_shares_documents (fun t _ _ => t ++ "!".toList) ⟨[0]⟩
    [mkDoc "hi"] (by decide)
  refine ⟨by decide, h.1, ?_⟩
  rw [h.2.1 0 0 rfl]
  rfl

/-- C6: `groupBy(fn)` partitions the receiver's documents: the group keys
are pairwise distinct; the group stored under key `k` holds exactly the
references of the receiver positions whose key is `k`, in receiver order
(and keys without such positions have no group); and the concatenation of
all groups is a permutation of the receiver's reference list, so every
position lands in exactly one group.  `groupBy` only reads the store, so
the receiver is not mutated. -/
theorem c6_groupBy_partition (f : List Char → List (String × String) → Nat → String)
    (c : Corpus) (st : Store) :
    (((Corpus.groupBy f c st).map Prod.fst).Nodup) ∧
    (∀ k, match findGroup (Corpus.groupBy f c st) k with
      | some g => g.docIds
          = ((c.docIds.enum.filter fun q => groupKey f st q.1 q.2 = k).map Prod.snd)
      | none => (c.docIds.enum.filter fun q => groupKey f st q.1 q.2 = k) = []) ∧
    (((Corpus.groupBy f c st).map fun p => p.2.docIds).join).Perm c.docIds := by
  have h := groupByGo_spec f st c.docIds.enum [] [] (by simp)
    (by
      intro k
      show (List.filter (fun q => groupKey f st q.1 q.2 = k) []) = []
      rfl)
  refine ⟨h.1, ?_, ?_⟩
  · intro k
    have h2 := h.2 k
    simpa using h2
  · have hp := groupByGo_join_perm f st c.docIds.enum []
    simpa [List.enum_map_snd] using hp
